import Mathlib

/-!
Verification of the Squirtle-Squad repository's almost-equal substring
matcher (`src/solution.py` and `src/ROUND_6/solution.py`) and of the OCR
text cleaner (`src/python-pdf-service/main.py`, `clean_ocr_text`).

Strings are modelled as `List Char`; Python's `-1` sentinel is modelled by
returning `Int`.
-/

/-- Hamming distance under zip semantics: positions beyond the shorter
sequence are ignored, exactly as Python's `zip` truncates. -/
def hamming : List Char → List Char → Nat
  | a :: as, b :: bs => (if a = b then 0 else 1) + hamming as bs
  | _, _ => 0

/-- Inner loop of `find_almost_equal` (src/solution.py): running `diff`
counter over `zip(s[i:i+m], p)`, incremented on mismatch, with an early
`break` as soon as `diff > 1`. -/
def diffLoop : Nat → List Char → List Char → Nat
  | d, a :: as, b :: bs =>
      if a = b then diffLoop d as bs
      else if d + 1 > 1 then d + 1
      else diffLoop (d + 1) as bs
  | d, _, _ => d

/-- Outer loop of `find_almost_equal`: `for i in range(n - m + 1)`, returning
`i` as soon as the window's mismatch count is at most 1, else `-1` after the
range is exhausted. `k` is the number of iterations left. -/
def faeGo (s p : List Char) : Nat → Nat → Int
  | _, 0 => -1
  | i, k + 1 =>
      if diffLoop 0 ((s.drop i).take p.length) p ≤ 1 then (i : Int)
      else faeGo s p (i + 1) k

/-- `find_almost_equal(s, p)` from src/solution.py. Python's
`range(n - m + 1)` runs `max 0 (n - m + 1) = n + 1 - m` (ℕ) iterations. -/
def find_almost_equal (s p : List Char) : Int :=
  faeGo s p 0 (s.length + 1 - p.length)

/-- Inner loop of `is_almost_equal` (src/ROUND_6/solution.py): the mismatch
counter is incremented on a differing pair and the `> 1` test runs on every
iteration, returning `False` as soon as it trips. -/
def is_almost_equal_go : Nat → List Char → List Char → Bool
  | d, a :: as, b :: bs =>
      if (if a = b then d else d + 1) > 1 then false
      else is_almost_equal_go (if a = b then d else d + 1) as bs
  | _, _, _ => true

/-- `is_almost_equal(s1, s2)` from src/ROUND_6/solution.py: unequal lengths
are rejected up front, then mismatches are counted with threshold 1. -/
def is_almost_equal (s1 s2 : List Char) : Bool :=
  if s1.length ≠ s2.length then false else is_almost_equal_go 0 s1 s2

/-- Outer loop of `find_almost_equal_substring` (src/ROUND_6/solution.py). -/
def faesGo (s pat : List Char) : Nat → Nat → Int
  | _, 0 => -1
  | i, k + 1 =>
      if is_almost_equal ((s.drop i).take pat.length) pat then (i : Int)
      else faesGo s pat (i + 1) k

/-- `find_almost_equal_substring(s, pattern)` from src/ROUND_6/solution.py. -/
def find_almost_equal_substring (s pat : List Char) : Int :=
  faesGo s pat 0 (s.length + 1 - pat.length)

/-! Helper lemmas about the two mismatch-counting loops. -/

lemma diffLoop_eq_min : ∀ (as bs : List Char) (d : Nat), d ≤ 1 →
    diffLoop d as bs = min (d + hamming as bs) 2 := by
  intro as
  induction as with
  | nil => intro bs d hd; simp [diffLoop, hamming]; omega
  | cons a as ih =>
      intro bs d hd
      cases bs with
      | nil => simp [diffLoop, hamming]; omega
      | cons b bs =>
          by_cases hab : a = b
          · simp only [diffLoop, hamming, if_pos hab]
            rw [ih bs d hd]
            omega
          · simp only [diffLoop, hamming, if_neg hab]
            by_cases hd1 : d + 1 > 1
            · rw [if_pos hd1]
              have := hamming as bs
              omega
            · rw [if_neg hd1, ih bs (d + 1) (by omega)]
              omega

lemma diffLoop_le_one_iff (as bs : List Char) :
    diffLoop 0 as bs ≤ 1 ↔ hamming as bs ≤ 1 := by
  rw [diffLoop_eq_min as bs 0 (by omega)]
  omega

lemma is_almost_equal_go_iff : ∀ (as bs : List Char) (d : Nat), d ≤ 1 →
    (is_almost_equal_go d as bs = true ↔ d + hamming as bs ≤ 1) := by
  intro as
  induction as with
  | nil => intro bs d hd; simp [is_almost_equal_go, hamming]; omega
  | cons a as ih =>
      intro bs d hd
      cases bs with
      | nil => simp [is_almost_equal_go, hamming]; omega
      | cons b bs =>
          by_cases hab : a = b
          · simp only [is_almost_equal_go, hamming, if_pos hab]
            rw [if_neg (by omega : ¬ d > 1), ih bs d hd]
            omega
          · simp only [is_almost_equal_go, hamming, if_neg hab]
            by_cases hd1 : d + 1 > 1
            · rw [if_pos hd1]
              simp
              have := hamming as bs
              omega
            · rw [if_neg hd1, ih bs (d + 1) (by omega)]
              omega

lemma is_almost_equal_iff (s1 s2 : List Char) :
    is_almost_equal s1 s2 = true ↔ (s1.length = s2.length ∧ hamming s1 s2 ≤ 1) := by
  unfold is_almost_equal
  by_cases h : s1.length = s2.length
  · rw [if_neg (by omega), is_almost_equal_go_iff s1 s2 0 (by omega)]
    constructor
    · intro hh; exact ⟨h, by omega⟩
    · intro hh; omega
  · rw [if_pos (by omega)]
    simp [h]

lemma hamming_self : ∀ (l : List Char), hamming l l = 0 := by
  intro l
  induction l with
  | nil => simp [hamming]
  | cons a as ih => simp [hamming, ih]

lemma window_length (s : List Char) (i m : Nat) (h : i + m ≤ s.length) :
    ((s.drop i).take m).length = m := by
  simp [List.length_take, List.length_drop]
  omega

/-! Characterisation of the scanning loop `faeGo`. -/

lemma faeGo_eq_neg_one_iff (s p : List Char) : ∀ (k i : Nat),
    (faeGo s p i k = -1 ↔
      ∀ t, t < k → ¬ hamming ((s.drop (i + t)).take p.length) p ≤ 1) := by
  intro k
  induction k with
  | zero => intro i; simp [faeGo]
  | succ k ih =>
      intro i
      rw [faeGo]
      by_cases h : hamming ((s.drop i).take p.length) p ≤ 1
      · rw [if_pos ((diffLoop_le_one_iff _ _).mpr h)]
        constructor
        · intro hi; omega
        · intro hall
          exact absurd h (by simpa using hall 0 (by omega))
      · rw [if_neg (fun hc => h ((diffLoop_le_one_iff _ _).mp hc))]
        rw [ih (i + 1)]
        constructor
        · intro hall t ht
          cases t with
          | zero => simpa using h
          | succ t' =>
              have := hall t' (by omega)
              simpa [Nat.add_assoc, Nat.add_comm 1 t'] using this
        · intro hall t ht
          have := hall (t + 1) (by omega)
          simpa [Nat.add_assoc, Nat.add_comm 1 t] using this

lemma faeGo_found (s p : List Char) : ∀ (k i : Nat),
    faeGo s p i k ≠ -1 →
    ∃ t, t < k ∧ faeGo s p i k = ((i + t : Nat) : Int) ∧
      hamming ((s.drop (i + t)).take p.length) p ≤ 1 ∧
      ∀ u, u < t → ¬ hamming ((s.drop (i + u)).take p.length) p ≤ 1 := by
  intro k
  induction k with
  | zero => intro i hne; simp [faeGo] at hne
  | succ k ih =>
      intro i hne
      rw [faeGo] at hne ⊢
      by_cases h : hamming ((s.drop i).take p.length) p ≤ 1
      · rw [if_pos ((diffLoop_le_one_iff _ _).mpr h)]
        exact ⟨0, by omega, by simp, by simpa using h, by omega⟩
      · have hcond : ¬ diffLoop 0 ((s.drop i).take p.length) p ≤ 1 :=
          fun hc => h ((diffLoop_le_one_iff _ _).mp hc)
        rw [if_neg hcond] at hne ⊢
        obtain ⟨t, ht, heq, hham, hmin⟩ := ih (i + 1) hne
        refine ⟨t + 1, by omega, ?_, ?_, ?_⟩
        · rw [heq]; congr 1; omega
        · have : i + 1 + t = i + (t + 1) := by omega
          rwa [this] at hham
        · intro u hu
          cases u with
          | zero => simpa using h
          | succ u' =>
              have := hmin u' (by omega)
              have harr : i + 1 + u' = i + (u' + 1) := by omega
              rwa [harr] at this

lemma faeGo_least (s p : List Char) : ∀ (k i t : Nat), t < k →
    hamming ((s.drop (i + t)).take p.length) p ≤ 1 →
    (∀ u, u < t → ¬ hamming ((s.drop (i + u)).take p.length) p ≤ 1) →
    faeGo s p i k = ((i + t : Nat) : Int) := by
  intro k
  induction k with
  | zero => intro i t ht; omega
  | succ k ih =>
      intro i t ht hham hmin
      rw [faeGo]
      cases t with
      | zero =>
          rw [if_pos ((diffLoop_le_one_iff _ _).mpr (by simpa using hham))]
          simp
      | succ t' =>
          have h0 : ¬ hamming ((s.drop i).take p.length) p ≤ 1 := by
            simpa using hmin 0 (by omega)
          rw [if_neg (fun hc => h0 ((diffLoop_le_one_iff _ _).mp hc))]
          have := ih (i + 1) t' (by omega)
            (by have harr : i + 1 + t' = i + (t' + 1) := by omega
                rwa [harr])
            (by intro u hu
                have := hmin (u + 1) (by omega)
                have harr : i + 1 + u = i + (u + 1) := by omega
                rwa [harr])
          rw [this]
          congr 1
          omega

lemma go_agree (s p : List Char) : ∀ (k i : Nat),
    i + k = s.length + 1 - p.length → faeGo s p i k = faesGo s p i k := by
  intro k
  induction k with
  | zero => intro i _; simp [faeGo, faesGo]
  | succ k ih =>
      intro i hik
      have hlen : ((s.drop i).take p.length).length = p.length :=
        window_length s i p.length (by omega)
      rw [faeGo, faesGo]
      by_cases h : hamming ((s.drop i).take p.length) p ≤ 1
      · rw [if_pos ((diffLoop_le_one_iff _ _).mpr h),
          if_pos ((is_almost_equal_iff _ _).mpr ⟨hlen, h⟩)]
      · rw [if_neg (fun hc => h ((diffLoop_le_one_iff _ _).mp hc)),
          if_neg (fun hc => h ((is_almost_equal_iff _ _).mp hc).2)]
        exact ih (i + 1) (by omega)

lemma find_almost_equal_eq_neg_one_iff (s p : List Char) :
    find_almost_equal s p = -1 ↔
      ∀ i : Nat, i + p.length ≤ s.length →
        ¬ hamming ((s.drop i).take p.length) p ≤ 1 := by
  rw [find_almost_equal, faeGo_eq_neg_one_iff]
  constructor
  · intro hall i hi
    have := hall i (by omega)
    simpa using this
  · intro hall t ht
    have := hall t (by omega)
    simpa using this

lemma find_almost_equal_longer (s p : List Char) (h : s.length < p.length) :
    find_almost_equal s p = -1 := by
  rw [find_almost_equal]
  have h0 : s.length + 1 - p.length = 0 := by omega
  rw [h0, faeGo]

/-! Embedding of `clean_ocr_text` (src/python-pdf-service/main.py).
Each `re.sub` call becomes a left-to-right scanner; the scanners that are
not plain structural recursions take a fuel argument instantiated with the
input's length (each step consumes at least one character, so the fuel
never runs out). `\s`, `\d` and `\w` are modelled over their ASCII
members, matching the characters the claims are about. -/

/-- Python's `\s` class (ASCII members): space, tab, newline, carriage
return, vertical tab, form feed. Also the class `str.strip()` removes. -/
def isPySpace (c : Char) : Bool :=
  c == ' ' || c == '\t' || c == '\n' || c == '\r' || c == '\x0b' || c == '\x0c'

/-- Word characters for `\w` (ASCII members). -/
def isWordCh (c : Char) : Bool :=
  c.isAlpha || c.isDigit || c == '_'

/-- Parse `img-\d+\.\w+` greedily at the head, returning the rest. -/
def matchImgName (cs : List Char) : Option (List Char) :=
  if cs.take 4 = ['i', 'm', 'g', '-'] then
    let cs1 := cs.drop 4
    let ds := cs1.takeWhile Char.isDigit
    if ds = [] then none
    else
      match cs1.drop ds.length with
      | '.' :: cs3 =>
          let ws := cs3.takeWhile isWordCh
          if ws = [] then none else some (cs3.drop ws.length)
      | _ => none
  else none

/-- Parse the whole image-reference pattern
`!\[img-\d+\.\w+\]\(img-\d+\.\w+\)` at the head, returning the rest. -/
def matchImg (cs : List Char) : Option (List Char) :=
  match cs with
  | '!' :: '[' :: cs1 =>
      (match matchImgName cs1 with
       | some (']' :: '(' :: cs2) =>
           (match matchImgName cs2 with
            | some (')' :: cs3) => some cs3
            | _ => none)
       | _ => none)
  | _ => none

/-- Scanner for `re.sub(r'!\[img-\d+\.\w+\]\(img-\d+\.\w+\)', '', text)`. -/
def subImgRefAux : Nat → List Char → List Char
  | 0, cs => cs
  | _ + 1, [] => []
  | fuel + 1, c :: cs =>
      match matchImg (c :: cs) with
      | some rest => subImgRefAux fuel rest
      | none => c :: subImgRefAux fuel cs

def subImgRef (cs : List Char) : List Char := subImgRefAux cs.length cs

/-- Scanner for `re.sub(r'^#{1,6}\s*', '', text, flags=re.MULTILINE)`. The
flag records whether the current position is a line start (position 0 or
just after a `'\n'`); `#{1,6}` takes at most six hashes greedily and `\s*`
then swallows whitespace, newlines included. -/
def subHeadersAux : Nat → Bool → List Char → List Char
  | 0, _, cs => cs
  | _ + 1, _, [] => []
  | fuel + 1, atStart, c :: cs =>
      if atStart ∧ c = '#' then
        let hs := (c :: cs).takeWhile (fun x => x == '#')
        let rest1 := (c :: cs).drop (min hs.length 6)
        let ws := rest1.takeWhile isPySpace
        subHeadersAux fuel (decide (ws.getLast? = some '\n')) (rest1.drop ws.length)
      else c :: subHeadersAux fuel (decide (c = '\n')) cs

def subHeaders (cs : List Char) : List Char := subHeadersAux cs.length true cs

/-- Scanner for `re.sub(r'\*\*([^*]+)\*\*', r'\1', text)`: the bracketed
group is the maximal nonempty run of non-`'*'` characters. -/
def subBoldAux : Nat → List Char → List Char
  | 0, cs => cs
  | _ + 1, [] => []
  | fuel + 1, '*' :: '*' :: rest =>
      (let r := rest.takeWhile (fun x => !(x == '*'))
       let rest2 := rest.drop r.length
       if r ≠ [] ∧ rest2.take 2 = ['*', '*'] then r ++ subBoldAux fuel (rest2.drop 2)
       else '*' :: subBoldAux fuel ('*' :: rest))
  | fuel + 1, c :: cs => c :: subBoldAux fuel cs

def subBold (cs : List Char) : List Char := subBoldAux cs.length cs

/-- Scanner for `re.sub(r'\*([^*]+)\*', r'\1', text)`. -/
def subItalicAux : Nat → List Char → List Char
  | 0, cs => cs
  | _ + 1, [] => []
  | fuel + 1, '*' :: rest =>
      (let r := rest.takeWhile (fun x => !(x == '*'))
       let rest2 := rest.drop r.length
       if r ≠ [] ∧ rest2.take 1 = ['*'] then r ++ subItalicAux fuel (rest2.drop 1)
       else '*' :: subItalicAux fuel rest)
  | fuel + 1, c :: cs => c :: subItalicAux fuel cs

def subItalic (cs : List Char) : List Char := subItalicAux cs.length cs

/-- Scanner for `re.sub(r'__([^_]+)__', r'\1', text)`. -/
def subUBoldAux : Nat → List Char → List Char
  | 0, cs => cs
  | _ + 1, [] => []
  | fuel + 1, '_' :: '_' :: rest =>
      (let r := rest.takeWhile (fun x => !(x == '_'))
       let rest2 := rest.drop r.length
       if r ≠ [] ∧ rest2.take 2 = ['_', '_'] then r ++ subUBoldAux fuel (rest2.drop 2)
       else '_' :: subUBoldAux fuel ('_' :: rest))
  | fuel + 1, c :: cs => c :: subUBoldAux fuel cs

def subUBold (cs : List Char) : List Char := subUBoldAux cs.length cs

/-- Scanner for `re.sub(r'_([^_]+)_', r'\1', text)`. -/
def subUItalicAux : Nat → List Char → List Char
  | 0, cs => cs
  | _ + 1, [] => []
  | fuel + 1, '_' :: rest =>
      (let r := rest.takeWhile (fun x => !(x == '_'))
       let rest2 := rest.drop r.length
       if r ≠ [] ∧ rest2.take 1 = ['_'] then r ++ subUItalicAux fuel (rest2.drop 1)
       else '_' :: subUItalicAux fuel rest)
  | fuel + 1, c :: cs => c :: subUItalicAux fuel cs

def subUItalic (cs : List Char) : List Char := subUItalicAux cs.length cs

/-- Scanner for `re.sub(r'^\s*[-*+]\s+', '• ', text, flags=re.MULTILINE)`.
At a line start, `\s*` takes the maximal whitespace run (the bullet marker
is not whitespace, so no shorter run can succeed), then a marker, then a
nonempty maximal whitespace run; the whole match becomes `"• "`. -/
def subBulletsAux : Nat → Bool → List Char → List Char
  | 0, _, cs => cs
  | _ + 1, _, [] => []
  | fuel + 1, atStart, c :: cs =>
      if atStart then
        let ws1 := (c :: cs).takeWhile isPySpace
        match (c :: cs).drop ws1.length with
        | d :: rest2 =>
            if d = '-' ∨ d = '*' ∨ d = '+' then
              let ws2 := rest2.takeWhile isPySpace
              if ws2 ≠ [] then
                '•' :: ' ' ::
                  subBulletsAux fuel (decide (ws2.getLast? = some '\n')) (rest2.drop ws2.length)
              else c :: subBulletsAux fuel (decide (c = '\n')) cs
            else c :: subBulletsAux fuel (decide (c = '\n')) cs
        | [] => c :: subBulletsAux fuel (decide (c = '\n')) cs
      else c :: subBulletsAux fuel (decide (c = '\n')) cs

def subBullets (cs : List Char) : List Char := subBulletsAux cs.length true cs

/-- Scanner for `re.sub(r'\s+', ' ', text)`: every maximal whitespace run
becomes a single space. The flag records whether the previous character was
part of a run whose space has already been emitted. -/
def subWsAux : Bool → List Char → List Char
  | _, [] => []
  | inWs, c :: cs =>
      if isPySpace c then
        (if inWs then subWsAux true cs else ' ' :: subWsAux true cs)
      else c :: subWsAux false cs

def subWs (cs : List Char) : List Char := subWsAux false cs

/-- Length of the maximal whitespace run at the head. -/
def wsRunLen (cs : List Char) : Nat := (cs.takeWhile isPySpace).length

/-- Greedy `\s*\n`: skip `k` whitespace characters (trying the longest
first, as a backtracking engine does) so that a `'\n'` follows; return the
rest after that newline. -/
def tryWsNl : Nat → List Char → Option (List Char)
  | 0, cs =>
      (match cs with
       | '\n' :: rest => some rest
       | _ => none)
  | k + 1, cs =>
      (match cs.drop (k + 1) with
       | '\n' :: rest => some rest
       | _ => tryWsNl k cs)

/-- Greedy `\s*\n+` at the head: `\s*\n` then the maximal newline run. -/
def matchTail2 (cs : List Char) : Option (List Char) :=
  match tryWsNl (wsRunLen cs) cs with
  | some rest1 => some (rest1.dropWhile (fun x => x == '\n'))
  | none => none

/-- Backtracking search for `\s*\n\s*\n+` after the leading `'\n'`: the
first `\s*` tries the longest whitespace prefix first and shrinks until the
remainder matches. -/
def tryMid : Nat → List Char → Option (List Char)
  | 0, cs =>
      (match cs with
       | '\n' :: r => matchTail2 r
       | _ => none)
  | k + 1, cs =>
      (match cs.drop (k + 1) with
       | '\n' :: r =>
           (match matchTail2 r with
            | some out => some out
            | none => tryMid k cs)
       | _ => tryMid k cs)

/-- Match `\n\s*\n\s*\n+` at the head, returning the rest. -/
def matchTripleNl : List Char → Option (List Char)
  | '\n' :: cs1 => tryMid (wsRunLen cs1) cs1
  | _ => none

/-- Scanner for `re.sub(r'\n\s*\n\s*\n+', '\n\n', text)`. -/
def subTripleNlAux : Nat → List Char → List Char
  | 0, cs => cs
  | _ + 1, [] => []
  | fuel + 1, c :: cs =>
      match matchTripleNl (c :: cs) with
      | some rest => '\n' :: '\n' :: subTripleNlAux fuel rest
      | none => c :: subTripleNlAux fuel cs

def subTripleNl (cs : List Char) : List Char := subTripleNlAux cs.length cs

/-- Scanner for `re.sub(r'\n\n+', '\n\n', result)`: a run of at least two
newlines becomes exactly two. -/
def subDoubleNlAux : Nat → List Char → List Char
  | 0, cs => cs
  | _ + 1, [] => []
  | fuel + 1, c :: cs =>
      if c = '\n' ∧ cs.head? = some '\n' then
        '\n' :: '\n' :: subDoubleNlAux fuel (cs.dropWhile (fun x => x == '\n'))
      else c :: subDoubleNlAux fuel cs

def subDoubleNl (cs : List Char) : List Char := subDoubleNlAux cs.length cs

/-- `text.split('\n')`, keeping empty pieces; `acc` is the reversed piece
being built. -/
def splitNlAux : List Char → List Char → List (List Char)
  | acc, [] => [acc.reverse]
  | acc, c :: cs =>
      if c = '\n' then acc.reverse :: splitNlAux [] cs
      else splitNlAux (c :: acc) cs

def splitNl (cs : List Char) : List (List Char) := splitNlAux [] cs

/-- `line.strip()` / `result.strip()`: drop leading and trailing
whitespace. -/
def stripStr (l : List Char) : List Char :=
  ((l.dropWhile isPySpace).reverse.dropWhile isPySpace).reverse

/-- The `for line in lines` loop of `clean_ocr_text`: strip each line, keep
nonempty lines, and keep at most one consecutive empty line (the flag is
Python's `prev_was_empty`). -/
def cleanLinesAux : Bool → List (List Char) → List (List Char)
  | _, [] => []
  | prevEmpty, l :: ls =>
      (let s := stripStr l
       if s = [] then
         (if prevEmpty then cleanLinesAux true ls
          else [] :: cleanLinesAux true ls)
       else s :: cleanLinesAux false ls)

def cleanLines (ls : List (List Char)) : List (List Char) := cleanLinesAux false ls

/-- `'\n'.join(cleaned_lines)`. -/
def joinNl : List (List Char) → List Char
  | [] => []
  | [l] => l
  | l :: ls => l ++ '\n' :: joinNl ls

/-- `clean_ocr_text(text)` from src/python-pdf-service/main.py: the empty
(falsy) check, the regex pipeline, the line-cleanup loop, the final strip
and the final newline collapse, in the source's order. -/
def clean_ocr_text (text : List Char) : List Char :=
  if text = [] then []
  else
    subDoubleNl (stripStr (joinNl (cleanLines (splitNl
      (subTripleNl (subWs (subBullets (subUItalic (subUBold
        (subItalic (subBold (subHeaders (subImgRef text)))))))))))))

/-! Properties of the cleaning pipeline: the whitespace collapse removes
every newline, so the later line-splitting sees a single line and the final
result is a single stripped line. -/

lemma mem_subWsAux : ∀ (b : Bool) (cs : List Char) (c : Char),
    c ∈ subWsAux b cs → c = ' ' ∨ isPySpace c = false := by
  intro b cs
  induction cs generalizing b with
  | nil => intro c hc; simp [subWsAux] at hc
  | cons x xs ih =>
      intro c hc
      rw [subWsAux] at hc
      by_cases hx : isPySpace x
      · rw [if_pos hx] at hc
        cases b with
        | true => exact ih true c (by simpa using hc)
        | false =>
            rcases (by simpa using hc : c = ' ' ∨ c ∈ subWsAux true xs) with h | h
            · exact Or.inl h
            · exact ih true c h
      · rw [if_neg hx] at hc
        rcases (by simpa using hc : c = x ∨ c ∈ subWsAux false xs) with h | h
        · refine Or.inr ?_
          rw [h]
          simpa using hx
        · exact ih false c h

lemma newline_not_mem_subWs (cs : List Char) : '\n' ∉ subWs cs := by
  intro h
  rcases mem_subWsAux false cs '\n' h with h1 | h1
  · exact absurd h1 (by decide)
  · exact absurd h1 (by simp [isPySpace])

lemma matchTripleNl_cons_ne (c : Char) (cs : List Char) (h : ¬ c = '\n') :
    matchTripleNl (c :: cs) = none := by
  rw [matchTripleNl.eq_def]
  split
  · simp_all
  · rfl

lemma subTripleNlAux_id : ∀ (fuel : Nat) (cs : List Char), '\n' ∉ cs →
    subTripleNlAux fuel cs = cs := by
  intro fuel
  induction fuel with
  | zero => intro cs _; rfl
  | succ n ih =>
      intro cs h
      cases cs with
      | nil => rfl
      | cons c cs' =>
          have hc : ¬ c = '\n' := fun e => h (by simp [e])
          rw [subTripleNlAux, matchTripleNl_cons_ne c cs' hc]
          exact congrArg (c :: ·) (ih cs' (fun hm => h (by simp [hm])))

lemma subTripleNl_id (cs : List Char) (h : '\n' ∉ cs) : subTripleNl cs = cs :=
  subTripleNlAux_id cs.length cs h

lemma subDoubleNlAux_id : ∀ (fuel : Nat) (cs : List Char), '\n' ∉ cs →
    subDoubleNlAux fuel cs = cs := by
  intro fuel
  induction fuel with
  | zero => intro cs _; rfl
  | succ n ih =>
      intro cs h
      cases cs with
      | nil => rfl
      | cons c cs' =>
          have hc : ¬ c = '\n' := fun e => h (by simp [e])
          rw [subDoubleNlAux, if_neg (fun hand => hc hand.1)]
          exact congrArg (c :: ·) (ih cs' (fun hm => h (by simp [hm])))

lemma subDoubleNl_id (cs : List Char) (h : '\n' ∉ cs) : subDoubleNl cs = cs :=
  subDoubleNlAux_id cs.length cs h

lemma splitNlAux_no_newline : ∀ (cs acc : List Char), '\n' ∉ cs →
    splitNlAux acc cs = [acc.reverse ++ cs] := by
  intro cs
  induction cs with
  | nil => intro acc _; simp [splitNlAux]
  | cons c cs' ih =>
      intro acc h
      have hc : ¬ c = '\n' := fun e => h (by simp [e])
      rw [splitNlAux, if_neg hc, ih (c :: acc) (fun hm => h (by simp [hm]))]
      simp

lemma head_dropWhile (p : Char → Bool) : ∀ (l : List Char) (c : Char),
    (l.dropWhile p).head? = some c → p c = false := by
  intro l
  induction l with
  | nil => intro c hc; simp [List.dropWhile] at hc
  | cons x xs ih =>
      intro c hc
      rw [List.dropWhile_cons] at hc
      by_cases hx : p x = true
      · exact ih c (by rwa [if_pos hx] at hc)
      · rw [if_neg hx] at hc
        simp at hc
        rw [← hc]
        simpa using hx

lemma getLast?_dropWhile (p : Char → Bool) : ∀ (l : List Char),
    l.dropWhile p ≠ [] → (l.dropWhile p).getLast? = l.getLast? := by
  intro l
  induction l with
  | nil => intro h; simp [List.dropWhile] at h
  | cons x xs ih =>
      intro h
      rw [List.dropWhile_cons] at h ⊢
      by_cases hx : p x = true
      · rw [if_pos hx] at h ⊢
        have hxs : xs ≠ [] := by
          intro e
          rw [e] at h
          simp [List.dropWhile] at h
        cases xs with
        | nil => exact absurd rfl hxs
        | cons y ys => rw [ih h, List.getLast?_cons_cons]
      · rw [if_neg hx]

lemma mem_stripStr (l : List Char) (c : Char) (h : c ∈ stripStr l) : c ∈ l := by
  unfold stripStr at h
  rw [List.mem_reverse] at h
  have h1 := (List.dropWhile_sublist isPySpace).mem h
  rw [List.mem_reverse] at h1
  exact (List.dropWhile_sublist isPySpace).mem h1

lemma stripStr_no_lead (l : List Char) :
    (stripStr l).dropWhile isPySpace = stripStr l := by
  unfold stripStr
  cases hbr : ((l.dropWhile isPySpace).reverse.dropWhile isPySpace).reverse with
  | nil => simp
  | cons c t =>
      have hc : isPySpace c = false := by
        have h1 : ((l.dropWhile isPySpace).reverse.dropWhile isPySpace).getLast? = some c := by
          rw [← List.head?_reverse, hbr]; rfl
        have hne : (l.dropWhile isPySpace).reverse.dropWhile isPySpace ≠ [] := by
          intro e
          rw [e] at hbr
          simp at hbr
        rw [getLast?_dropWhile isPySpace _ hne, List.getLast?_reverse] at h1
        exact head_dropWhile isPySpace l c h1
      rw [List.dropWhile_cons, if_neg (by simp [hc])]

lemma stripStr_no_trail (l : List Char) :
    (stripStr l).reverse.dropWhile isPySpace = (stripStr l).reverse := by
  unfold stripStr
  rw [List.reverse_reverse]
  exact List.dropWhile_idempotent isPySpace _

lemma cleanLines_single (u : List Char) :
    cleanLines [u] = if stripStr u = [] then [[]] else [stripStr u] := by
  rw [cleanLines, cleanLinesAux]
  by_cases hs : stripStr u = []
  · simp [hs, cleanLinesAux]
  · simp [hs, cleanLinesAux]

lemma pipeline_tail_props (u : List Char) (h : '\n' ∉ u) :
    '\n' ∉ subDoubleNl (stripStr (joinNl (cleanLines (splitNl u)))) ∧
    (subDoubleNl (stripStr (joinNl (cleanLines (splitNl u))))).dropWhile isPySpace
      = subDoubleNl (stripStr (joinNl (cleanLines (splitNl u)))) ∧
    (subDoubleNl (stripStr (joinNl (cleanLines (splitNl u))))).reverse.dropWhile isPySpace
      = (subDoubleNl (stripStr (joinNl (cleanLines (splitNl u))))).reverse := by
  have hsplit : splitNl u = [u] := by
    rw [splitNl, splitNlAux_no_newline u [] h]
    simp
  rw [hsplit, cleanLines_single]
  by_cases hs : stripStr u = []
  · rw [if_pos hs]
    exact ⟨by simp [joinNl, stripStr, subDoubleNl, subDoubleNlAux, List.dropWhile], by rfl, by rfl⟩
  · rw [if_neg hs]
    have hjoin : joinNl [stripStr u] = stripStr u := rfl
    rw [hjoin]
    have hnl : '\n' ∉ stripStr (stripStr u) :=
      fun hm => h (mem_stripStr u '\n' (mem_stripStr (stripStr u) '\n' hm))
    rw [subDoubleNl_id _ hnl]
    exact ⟨hnl, stripStr_no_lead (stripStr u), stripStr_no_trail (stripStr u)⟩

lemma clean_ocr_props (t : List Char) :
    '\n' ∉ clean_ocr_text t ∧
    (clean_ocr_text t).dropWhile isPySpace = clean_ocr_text t ∧
    (clean_ocr_text t).reverse.dropWhile isPySpace = (clean_ocr_text t).reverse := by
  by_cases ht : t = []
  · rw [clean_ocr_text, if_pos ht]
    exact ⟨by simp, rfl, rfl⟩
  · rw [clean_ocr_text, if_neg ht]
    rw [subTripleNl_id _ (newline_not_mem_subWs _)]
    exact pipeline_tail_props _ (newline_not_mem_subWs _)

/-! Claim theorems. -/

/-- C1: whenever `find_almost_equal` returns an offset other than the
NotFound sentinel `-1`, that offset is a natural number `k` with
`k + |P| ≤ |T|`, the window `T[k : k+|P|]` is within Hamming distance 1 of
the pattern, and no smaller offset's window is — the returned offset is the
smallest qualifying one. -/
theorem claim1_returned_offset_is_minimal_match (s p : List Char)
    (h : find_almost_equal s p ≠ -1) :
    ∃ k : Nat, find_almost_equal s p = (k : Int) ∧ k + p.length ≤ s.length ∧
      hamming ((s.drop k).take p.length) p ≤ 1 ∧
      ∀ j, j < k → ¬ hamming ((s.drop j).take p.length) p ≤ 1 := by
  rw [find_almost_equal] at h ⊢
  obtain ⟨t, ht, heq, hham, hmin⟩ := faeGo_found s p (s.length + 1 - p.length) 0 h
  refine ⟨t, by simpa using heq, by omega, by simpa using hham, ?_⟩
  intro j hj
  simpa using hmin j hj

theorem claim1_witness :
    ∃ k : Nat, find_almost_equal ['a', 'b'] ['b'] = (k : Int) ∧
      k + (['b'] : List Char).length ≤ (['a', 'b'] : List Char).length ∧
      hamming (((['a', 'b'] : List Char).drop k).take (['b'] : List Char).length) ['b'] ≤ 1 ∧
      ∀ j, j < k →
        ¬ hamming (((['a', 'b'] : List Char).drop j).take (['b'] : List Char).length) ['b'] ≤ 1 :=
  claim1_returned_offset_is_minimal_match ['a', 'b'] ['b'] (by decide)

/-- C2: `find_almost_equal` returns the sentinel `-1` exactly when no valid
offset's window is within Hamming distance 1 of the pattern. The embedded
function is total, mirroring that the Python routine raises no exception on
well-formed inputs and signals absence only through the sentinel. -/
theorem claim2_sentinel_iff_no_window (s p : List Char) :
    find_almost_equal s p = -1 ↔
      ∀ i : Nat, i + p.length ≤ s.length →
        ¬ hamming ((s.drop i).take p.length) p ≤ 1 :=
  find_almost_equal_eq_neg_one_iff s p

/-- C3: the two implementations compute the same function on every input. -/
theorem claim3_implementations_agree (s p : List Char) :
    find_almost_equal s p = find_almost_equal_substring s p := by
  rw [find_almost_equal, find_almost_equal_substring]
  exact go_agree s p (s.length + 1 - p.length) 0 (by omega)

/-- C4 as stated is false on the code: with T = "ab" and P = "b" the
pattern occurs exactly at offset 1 and at no smaller offset, yet the
function does not return 1 (offset 0 is already within Hamming distance 1,
so 0 is returned). -/
theorem claim4_counterexample :
    ((['a', 'b'] : List Char).drop 1).take 1 = ['b'] ∧
    ¬ ((['a', 'b'] : List Char).drop 0).take 1 = ['b'] ∧
    find_almost_equal ['a', 'b'] ['b'] ≠ 1 := by decide

/-- C4 amended: if the pattern occurs exactly at offset `k` and no smaller
offset's window is within Hamming distance 1 of the pattern, then
`find_almost_equal` returns `k`. -/
theorem claim4_exact_occurrence_found (s p : List Char) (k : Nat)
    (hk : k + p.length ≤ s.length)
    (hex : (s.drop k).take p.length = p)
    (hmin : ∀ j, j < k → ¬ hamming ((s.drop j).take p.length) p ≤ 1) :
    find_almost_equal s p = (k : Int) := by
  rw [find_almost_equal]
  have hham : hamming ((s.drop k).take p.length) p ≤ 1 := by
    rw [hex, hamming_self]
    omega
  have := faeGo_least s p (s.length + 1 - p.length) 0 k (by omega)
    (by simpa using hham) (by intro u hu; simpa using hmin u hu)
  simpa using this

theorem claim4_witness :
    find_almost_equal ['x', 'a', 'b'] ['a', 'b'] = ((1 : Nat) : Int) :=
  claim4_exact_occurrence_found ['x', 'a', 'b'] ['a', 'b'] 1
    (by decide) (by decide) (by decide)

/-- C5: a pattern longer than the text is never found: the iteration count
`max 0 (n - m + 1)` is zero, so the scan returns the sentinel at once. -/
theorem claim5_pattern_longer_notfound (s p : List Char)
    (h : s.length < p.length) : find_almost_equal s p = -1 :=
  find_almost_equal_longer s p h

theorem claim5_witness : find_almost_equal [] ['a'] = -1 :=
  claim5_pattern_longer_notfound [] ['a'] (by decide)

/-- C6: an empty pattern matches every text at offset 0 (zero mismatches in
the empty window), in particular on empty text; a nonempty pattern is never
found in empty text. -/
theorem claim6_empty_pattern_and_text :
    (∀ t : List Char, find_almost_equal t [] = 0) ∧
    find_almost_equal [] [] = 0 ∧
    (∀ p : List Char, p ≠ [] → find_almost_equal [] p = -1) := by
  refine ⟨?_, by decide, ?_⟩
  · intro t
    rw [find_almost_equal]
    have hc : t.length + 1 - ([] : List Char).length = t.length + 1 := by simp
    rw [hc, faeGo]
    simp [diffLoop]
  · intro p hp
    exact find_almost_equal_longer [] p (by simpa using List.length_pos.mpr hp)

/-- C7: when text and pattern have equal length and Hamming distance
exactly 1, the single window qualifies under the at-most-one rule, so the
result is 0, not the sentinel `-1`. -/
theorem claim7_equal_length_one_mismatch (s p : List Char)
    (hlen : s.length = p.length) (hham : hamming s p = 1) :
    find_almost_equal s p = 0 ∧ find_almost_equal s p ≠ -1 := by
  have hw : (s.drop 0).take p.length = s := by
    rw [List.drop_zero, ← hlen, List.take_length]
  have h0 : find_almost_equal s p = 0 := by
    rw [find_almost_equal]
    have hone : s.length + 1 - p.length = 1 := by omega
    rw [hone]
    have := faeGo_least s p 1 0 0 (by omega) (by rw [hw]; omega) (by omega)
    simpa using this
  exact ⟨h0, by rw [h0]; decide⟩

theorem claim7_witness :
    find_almost_equal ['a', 'a', 'a', 'a', 'a', 'a'] ['a', 'a', 'a', 'a', 'a', 'b'] = 0 ∧
    find_almost_equal ['a', 'a', 'a', 'a', 'a', 'a'] ['a', 'a', 'a', 'a', 'a', 'b'] ≠ -1 :=
  claim7_equal_length_one_mismatch
    ['a', 'a', 'a', 'a', 'a', 'a'] ['a', 'a', 'a', 'a', 'a', 'b'] (by decide) (by decide)

/-- C8: the two concrete scenarios of the spec, on both implementations:
the first qualifying offset is 1 for ("abcdefg", "bcdffg") and 4 for
("ababbababa", "bacaba"). -/
theorem claim8_concrete_scenarios :
    find_almost_equal ['a', 'b', 'c', 'd', 'e', 'f', 'g'] ['b', 'c', 'd', 'f', 'f', 'g'] = 1 ∧
    find_almost_equal
      ['a', 'b', 'a', 'b', 'b', 'a', 'b', 'a', 'b', 'a'] ['b', 'a', 'c', 'a', 'b', 'a'] = 4 ∧
    find_almost_equal_substring
      ['a', 'b', 'c', 'd', 'e', 'f', 'g'] ['b', 'c', 'd', 'f', 'f', 'g'] = 1 ∧
    find_almost_equal_substring
      ['a', 'b', 'a', 'b', 'b', 'a', 'b', 'a', 'b', 'a'] ['b', 'a', 'c', 'a', 'b', 'a'] = 4 := by
  decide

/-- C9: the function is deterministic — two invocations on the same pair
agree. In this embedding `find_almost_equal` is a pure function of its
arguments, mirroring that the Python code reads but never mutates its
(immutable string) inputs. -/
theorem claim9_deterministic (s p : List Char) (r1 r2 : Int)
    (h1 : find_almost_equal s p = r1) (h2 : find_almost_equal s p = r2) :
    r1 = r2 := by rw [← h1, ← h2]

theorem claim9_witness : (0 : Int) = 0 :=
  claim9_deterministic [] [] 0 0 (by decide) (by decide)

/-- C10: `clean_ocr_text` always yields a single line — the whitespace
collapse `\s+ → ' '` runs before any newline-based splitting, so the output
contains no newline and carries no leading or trailing whitespace (stated
as: dropping leading whitespace, and dropping trailing whitespace via the
reverse, are both identities); the empty (falsy) input yields the empty
string. -/
theorem claim10_clean_single_stripped_line (t : List Char) :
    '\n' ∉ clean_ocr_text t ∧
    (clean_ocr_text t).dropWhile isPySpace = clean_ocr_text t ∧
    (clean_ocr_text t).reverse.dropWhile isPySpace = (clean_ocr_text t).reverse ∧
    clean_ocr_text [] = [] :=
  ⟨(clean_ocr_props t).1, (clean_ocr_props t).2.1, (clean_ocr_props t).2.2, rfl⟩
